import Mathlib

/-!
Verification of the repository health-check engine of `codcod/repos`.

The CLI entry point (`cmd/repos/main.go`) is embedded directly.  The engine
packages (`internal/health` and friends) are not part of the provided
sources; the definitions for them below are modelled from the specification
and marked as such in their doc comments.
-/

namespace Repos

/-- Severity scale of a finding, from `internal/health` via the spec data
model: `low | medium | high | critical`. -/
inductive Severity where
  | low
  | medium
  | high
  | critical
deriving DecidableEq, Repr

/-- A single reported issue.  From the spec data model: checker id,
category, severity, repository name, message, optional numeric metric. -/
structure Finding where
  checkerId : String
  category : String
  severity : Severity
  repoName : String
  message : String
  metric : Option Nat
deriving DecidableEq, Repr

/-- The global summary of a `HealthReport`: `Summary{Critical, Warning,
Info}`, as consumed by `healthCmd` in `cmd/repos/main.go`. -/
structure Summary where
  critical : Nat
  warning : Nat
  info : Nat
deriving DecidableEq, Repr

/-- Exit-code computation of `healthCmd` in `cmd/repos/main.go`
(lines 330-337): `os.Exit(2)` when `report.Summary.Critical > 0`, else
`os.Exit(1)` when `report.Summary.Warning > 0`, else fall through to a
normal exit 0. -/
def exitCode (s : Summary) : Nat :=
  if s.critical > 0 then 2
  else if s.warning > 0 then 1
  else 0

/-- C1: the process exit code of a completed health run is determined
solely by the report's global summary: 2 whenever `Critical > 0`, 1
whenever `Warning > 0` and `Critical = 0`, and 0 when both are 0. -/
theorem exit_code_contract (s : Summary) :
    (s.critical > 0 → exitCode s = 2) ∧
    (s.warning > 0 ∧ s.critical = 0 → exitCode s = 1) ∧
    (s.critical = 0 ∧ s.warning = 0 → exitCode s = 0) := by
  refine ⟨fun h => ?_, fun ⟨hw, hc⟩ => ?_, fun ⟨hc, hw⟩ => ?_⟩
  · simp [exitCode, h]
  · simp [exitCode, hc, hw]
  · simp [exitCode, hc, hw]

/-- Witness for C1 at concrete summaries. -/
theorem exit_code_contract_witness :
    exitCode ⟨1, 2, 3⟩ = 2 ∧ exitCode ⟨0, 2, 3⟩ = 1 ∧ exitCode ⟨0, 0, 3⟩ = 0 :=
  ⟨(exit_code_contract ⟨1, 2, 3⟩).1 (by decide),
   (exit_code_contract ⟨0, 2, 3⟩).2.1 ⟨by decide, rfl⟩,
   (exit_code_contract ⟨0, 0, 3⟩).2.2 ⟨rfl, rfl⟩⟩

/-- The three buckets of the global summary. -/
inductive SummaryClass where
  | crit
  | warn
  | info
deriving DecidableEq, Repr

/-- Modelled from the spec: the Report Aggregator classifies each finding's
four-level severity into the three global `Summary` buckets; the
classification is total (every finding is tracked), with `critical`
counted as Critical, `high` and `medium` as Warning, and `low` as Info. -/
def sevClass : Severity → SummaryClass
  | .critical => .crit
  | .high => .warn
  | .medium => .warn
  | .low => .info

/-- Modelled from the spec: the aggregator folds one finding into the
running summary, incrementing exactly the bucket of its severity. -/
def addFinding (s : Summary) (f : Finding) : Summary :=
  match sevClass f.severity with
  | .crit => { s with critical := s.critical + 1 }
  | .warn => { s with warning := s.warning + 1 }
  | .info => { s with info := s.info + 1 }

/-- One repository's slice of a health report: its finding list. -/
structure RepoResult where
  repoName : String
  findings : List Finding
deriving DecidableEq, Repr

/-- Ordered per-repository finding lists plus the global summary. -/
structure HealthReport where
  results : List RepoResult
  summary : Summary
deriving DecidableEq, Repr

/-- Modelled from the spec: `aggregate(taskResults) -> HealthReport`; the
summary is accumulated by folding every repository's findings, in order,
into an all-zero summary. -/
def aggregate (rs : List RepoResult) : HealthReport :=
  { results := rs
    summary := rs.foldl (fun s r => r.findings.foldl addFinding s) ⟨0, 0, 0⟩ }

/-- Number of findings of a list falling in a given summary bucket. -/
def countAt (c : SummaryClass) (fs : List Finding) : Nat :=
  fs.countP fun f => sevClass f.severity = c

/-- All findings of a result list, across repositories. -/
def allFindings (rs : List RepoResult) : List Finding :=
  (rs.map RepoResult.findings).flatten

theorem foldl_addFinding (fs : List Finding) (s : Summary) :
    fs.foldl addFinding s =
      ⟨s.critical + countAt .crit fs, s.warning + countAt .warn fs,
       s.info + countAt .info fs⟩ := by
  induction fs generalizing s with
  | nil => simp [countAt]
  | cons f fs ih =>
    rw [List.foldl_cons, ih]
    cases h : sevClass f.severity <;>
      simp [addFinding, h, countAt, List.countP_cons, Nat.add_comm,
        Nat.add_assoc, Nat.add_left_comm]

theorem aggregate_summary_eq (rs : List RepoResult) :
    (aggregate rs).summary =
      ⟨countAt .crit (allFindings rs), countAt .warn (allFindings rs),
       countAt .info (allFindings rs)⟩ := by
  have key : ∀ (s : Summary),
      rs.foldl (fun s r => r.findings.foldl addFinding s) s =
        ⟨s.critical + countAt .crit (allFindings rs),
         s.warning + countAt .warn (allFindings rs),
         s.info + countAt .info (allFindings rs)⟩ := by
    induction rs with
    | nil => intro s; simp [allFindings, countAt]
    | cons r rs ih =>
      intro s
      rw [List.foldl_cons, foldl_addFinding, ih]
      simp [allFindings, countAt, List.countP_append, Nat.add_assoc]
  simpa [aggregate] using key ⟨0, 0, 0⟩

theorem countAt_total (fs : List Finding) :
    countAt .crit fs + countAt .warn fs + countAt .info fs = fs.length := by
  induction fs with
  | nil => simp [countAt]
  | cons f fs ih =>
    cases h : sevClass f.severity <;>
      simp [countAt, List.countP_cons, h] at ih ⊢ <;> omega

/-- C2: the global summary counts each equal the sum over all repositories
of that repository's finding counts at the corresponding severity bucket,
and their total equals the number of findings across all repositories. -/
theorem aggregate_summary_counts (rs : List RepoResult) :
    (aggregate rs).summary.critical
        = (rs.map fun r => countAt .crit r.findings).sum ∧
    (aggregate rs).summary.warning
        = (rs.map fun r => countAt .warn r.findings).sum ∧
    (aggregate rs).summary.info
        = (rs.map fun r => countAt .info r.findings).sum ∧
    (aggregate rs).summary.critical + (aggregate rs).summary.warning
        + (aggregate rs).summary.info = (allFindings rs).length := by
  have hchar := aggregate_summary_eq rs
  have hjoin : ∀ c : SummaryClass,
      countAt c (allFindings rs) = (rs.map fun r => countAt c r.findings).sum := by
    intro c
    simp only [allFindings, countAt, List.countP_flatten, List.map_map]
    rfl
  refine ⟨?_, ?_, ?_, ?_⟩
  · rw [hchar]; exact hjoin .crit
  · rw [hchar]; exact hjoin .warn
  · rw [hchar]; exact hjoin .info
  · rw [hchar]; exact countAt_total (allFindings rs)

/-- C8: aggregation is a pure function of the input finding multiset —
result lists carrying the same findings up to permutation yield identical
summary counts. -/
theorem aggregate_deterministic (rs rs' : List RepoResult)
    (h : (allFindings rs).Perm (allFindings rs')) :
    (aggregate rs).summary = (aggregate rs').summary := by
  rw [aggregate_summary_eq, aggregate_summary_eq]
  have hc : ∀ c : SummaryClass,
      countAt c (allFindings rs) = countAt c (allFindings rs') := by
    intro c; exact h.countP_eq _
  rw [hc .crit, hc .warn, hc .info]

/-- Witness for C8: two different repository groupings of the same two
findings aggregate to the same summary. -/
theorem aggregate_deterministic_witness :
    (aggregate [⟨"a", [⟨"c1", "quality", .critical, "a", "m", none⟩]⟩,
                ⟨"b", [⟨"c2", "git", .low, "b", "n", none⟩]⟩]).summary =
    (aggregate [⟨"ab", [⟨"c1", "quality", .critical, "a", "m", none⟩,
                        ⟨"c2", "git", .low, "b", "n", none⟩]⟩]).summary :=
  aggregate_deterministic _ _ (by simp [allFindings])

/-- A checker definition held by the Registry: identity, category tags,
configured severity, enabled flag (timeout, options and exclusions are not
needed by the filtering contract). -/
structure CheckerDefinition where
  id : String
  categories : List String
  severity : Severity
  enabled : Bool
deriving DecidableEq, Repr

/-- Whether a checker carries at least one category from the given set. -/
def hasCategoryIn (c : CheckerDefinition) (s : List String) : Bool :=
  c.categories.any fun t => s.contains t

/-- Modelled from the spec: `listEnabled(includeCategories,
excludeCategories)` — disabled checkers never survive; when the include
set is non-empty only checkers with at least one included category
survive; the exclude set then removes any survivor carrying an excluded
category. -/
def listEnabled (regs : List CheckerDefinition) (I E : List String) :
    List CheckerDefinition :=
  ((regs.filter fun c => c.enabled).filter
      fun c => I.isEmpty || hasCategoryIn c I).filter
    fun c => !hasCategoryIn c E

theorem mem_listEnabled (regs : List CheckerDefinition) (I E : List String)
    (c : CheckerDefinition) :
    c ∈ listEnabled regs I E ↔
      c ∈ regs ∧ c.enabled = true ∧
      (I ≠ [] → ∃ t ∈ c.categories, t ∈ I) ∧
      ∀ t ∈ c.categories, t ∉ E := by
  simp only [listEnabled, List.mem_filter, hasCategoryIn, Bool.or_eq_true,
    List.isEmpty_iff, Bool.not_eq_true', Bool.and_eq_true, List.any_eq_false,
    List.any_eq_true, List.contains, List.elem_iff, decide_eq_true_eq]
  constructor
  · rintro ⟨⟨⟨hm, he⟩, hi⟩, hx⟩
    refine ⟨hm, he, fun hne => ?_, fun t ht => ?_⟩
    · rcases hi with h | h
      · exact absurd h hne
      · exact h
    · exact (hx t ht)
  · rintro ⟨hm, he, hi, hx⟩
    refine ⟨⟨⟨hm, he⟩, ?_⟩, fun t ht => hx t ht⟩
    by_cases hI : I = []
    · exact Or.inl hI
    · exact Or.inr (hi hI)

/-- C3: `listEnabled(I, E)` returns exactly the enabled checkers passing
category inclusion then exclusion (exclusion wins); with
`I = {"quality"}, E = {}` exactly the checkers carrying `"quality"`
survive, and with `E = {"quality"}` added the result is empty. -/
theorem listEnabled_filtering (regs : List CheckerDefinition)
    (I E : List String) (c : CheckerDefinition) :
    (c ∈ listEnabled regs I E ↔
       c ∈ regs ∧ c.enabled = true ∧
       (I ≠ [] → ∃ t ∈ c.categories, t ∈ I) ∧
       ∀ t ∈ c.categories, t ∉ E) ∧
    (c ∈ listEnabled regs ["quality"] [] ↔
       c ∈ regs ∧ c.enabled = true ∧ "quality" ∈ c.categories) ∧
    listEnabled regs ["quality"] ["quality"] = [] := by
  refine ⟨mem_listEnabled regs I E c, ?_, ?_⟩
  · rw [mem_listEnabled]
    constructor
    · rintro ⟨hm, he, hi, -⟩
      obtain ⟨t, ht, hq⟩ := hi (by simp)
      simp only [List.mem_singleton] at hq
      exact ⟨hm, he, hq ▸ ht⟩
    · rintro ⟨hm, he, hq⟩
      exact ⟨hm, he, fun _ => ⟨"quality", hq, by simp⟩, by simp⟩
  · rw [List.eq_nil_iff_forall_not_mem]
    intro x hx
    rw [mem_listEnabled] at hx
    obtain ⟨-, -, hi, hx⟩ := hx
    obtain ⟨t, ht, hq⟩ := hi (by simp)
    simp only [List.mem_singleton] at hq
    exact hx t ht (by simp [hq])

/-- Witness for C3 on a concrete two-checker registry. -/
theorem listEnabled_filtering_witness :
    listEnabled
      [⟨"cc", ["quality"], .medium, true⟩, ⟨"git", ["git"], .low, true⟩]
      ["quality"] ["quality"] = [] :=
  (listEnabled_filtering
      [⟨"cc", ["quality"], .medium, true⟩, ⟨"git", ["git"], .low, true⟩]
      ["quality"] ["quality"] ⟨"cc", ["quality"], .medium, true⟩).2.2

/-- A lexical token of a scanned function body, as relevant to decision
point counting. -/
inductive Token where
  | kwIf
  | kwElif
  | kwFor
  | kwWhile
  | kwCase
  | kwCatch
  | opAnd
  | opOr
  | other
deriving DecidableEq, Repr

/-- Modelled from the spec: the decision points are `if`, `else if`/`elif`,
`for`, `while`, `case`/`when` branches, `catch`/`except` clauses, and the
short-circuit boolean operators. -/
def isDecisionPoint : Token → Bool
  | .kwIf => true
  | .kwElif => true
  | .kwFor => true
  | .kwWhile => true
  | .kwCase => true
  | .kwCatch => true
  | .opAnd => true
  | .opOr => true
  | .other => false

/-- Modelled from the spec: the analyzer scans a function body token by
token, incrementing an accumulator at each decision point. -/
def complexityScan : List Token → Nat → Nat
  | [], acc => acc
  | t :: ts, acc => complexityScan ts (if isDecisionPoint t then acc + 1 else acc)

/-- Modelled from the spec: cyclomatic complexity of a function body is the
scan started from a baseline of 1. -/
def complexity (body : List Token) : Nat :=
  complexityScan body 1

/-- One analyzer measurement: `(functionName, startLine, complexity)`. -/
structure FunctionMeasure where
  name : String
  startLine : Nat
  value : Nat
deriving DecidableEq, Repr

/-- Per-language analyzer configuration: the complexity threshold (from
`config/checkers.yaml`) and the `detailed_report` flag. -/
structure AnalyzerConfig where
  threshold : Nat
  detailedReport : Bool
deriving DecidableEq, Repr

/-- Per-language thresholds from `config/checkers.yaml`
(`cyclomatic_complexity.language_specific`, with `default_threshold: 10`
for any other language). -/
def languageThreshold : String → Nat
  | "python" => 8
  | "java" => 12
  | "javascript" => 10
  | "typescript" => 10
  | "go" => 10
  | _ => 10

/-- Modelled from the spec: when `detailed_report` is set every measured
function is recorded in the analyzer results, otherwise only threshold
violations are. -/
def recordedResults (cfg : AnalyzerConfig) (funcs : List FunctionMeasure) :
    List FunctionMeasure :=
  if cfg.detailedReport then funcs
  else funcs.filter fun f => cfg.threshold < f.value

/-- Modelled from the spec: a function whose measured complexity exceeds
the language threshold produces one Finding at the checker's configured
severity carrying the measured value as its numeric metric. -/
def complexityFindings (threshold : Nat) (sev : Severity) (repo : String)
    (funcs : List FunctionMeasure) : List Finding :=
  (funcs.filter fun f => threshold < f.value).map fun f =>
    { checkerId := "cyclomatic_complexity", category := "quality",
      severity := sev, repoName := repo, message := f.name,
      metric := some f.value }

theorem complexityScan_eq (body : List Token) (acc : Nat) :
    complexityScan body acc = acc + body.countP isDecisionPoint := by
  induction body generalizing acc with
  | nil => simp [complexityScan]
  | cons t ts ih =>
    rw [complexityScan, ih]
    cases h : isDecisionPoint t <;>
      simp [List.countP_cons, h, Nat.add_comm, Nat.add_assoc, Nat.add_left_comm]

theorem countP_decision_of_if_and (body : List Token)
    (hmem : ∀ t ∈ body, t = .kwIf ∨ t = .opAnd ∨ t = .other) :
    body.countP isDecisionPoint = body.count .kwIf + body.count .opAnd := by
  induction body with
  | nil => simp
  | cons t ts ih =>
    have hts : ∀ t ∈ ts, t = .kwIf ∨ t = .opAnd ∨ t = .other :=
      fun x hx => hmem x (List.mem_cons_of_mem t hx)
    have hih := ih hts
    rcases hmem t (List.mem_cons_self t ts) with h | h | h <;>
      subst h <;>
      simp [List.countP_cons, List.count_cons, isDecisionPoint, hih] <;>
      omega

/-- C4: against the configured threshold 10 (language `go` in
`config/checkers.yaml`), a function measured at complexity 11 produces
exactly one Finding carrying the checker's configured severity and metric
11, while a function measured at complexity 10 produces none. -/
theorem complexity_threshold_strict (sev : Severity) (repo fn : String)
    (line : Nat) :
    complexityFindings (languageThreshold "go") sev repo [⟨fn, line, 11⟩] =
      [⟨"cyclomatic_complexity", "quality", sev, repo, fn, some 11⟩] ∧
    complexityFindings (languageThreshold "go") sev repo [⟨fn, line, 10⟩]
      = [] := by
  constructor
  · simp [complexityFindings, languageThreshold]
  · simp [complexityFindings, languageThreshold]

/-- C5: a body holding exactly 3 `if` tokens, one `&&` token and otherwise
no decision points has complexity 5; a body with no decision points has
complexity 1, and a function measured within threshold is recorded in the
analyzer results exactly when `detailed_report` is set. -/
theorem complexity_counting :
    (∀ body : List Token,
       body.count .kwIf = 3 → body.count .opAnd = 1 →
       (∀ t ∈ body, t = .kwIf ∨ t = .opAnd ∨ t = .other) →
       complexity body = 5) ∧
    (∀ body : List Token, (∀ t ∈ body, isDecisionPoint t = false) →
       complexity body = 1) ∧
    (∀ (cfg : AnalyzerConfig) (f : FunctionMeasure), f.value ≤ cfg.threshold →
       (f ∈ recordedResults cfg [f] ↔ cfg.detailedReport = true)) := by
  refine ⟨fun body h3 h1 hmem => ?_, fun body hnone => ?_, fun cfg f hle => ?_⟩
  · rw [complexity, complexityScan_eq, countP_decision_of_if_and body hmem,
      h3, h1]
  · rw [complexity, complexityScan_eq]
    have : body.countP isDecisionPoint = 0 := by
      rw [List.countP_eq_zero]
      intro t ht
      simp [hnone t ht]
    rw [this]
  · cases hd : cfg.detailedReport <;>
      simp [recordedResults, hd, Nat.not_lt.mpr hle]

/-- Witness for C5: a concrete body with 3 `if`s and one `&&` scores 5, the
empty body scores 1, and a complexity-1 function under threshold 10 is
recorded exactly when the detailed report is requested. -/
theorem complexity_counting_witness :
    complexity [.kwIf, .other, .kwIf, .opAnd, .other, .kwIf] = 5 ∧
    complexity [.other, .other] = 1 ∧
    (⟨"f", 1, 1⟩ ∈ recordedResults ⟨10, true⟩ [⟨"f", 1, 1⟩] ↔ true = true) :=
  ⟨complexity_counting.1 [.kwIf, .other, .kwIf, .opAnd, .other, .kwIf]
      (by decide) (by decide) (by decide),
   complexity_counting.2.1 [.other, .other] (by decide),
   complexity_counting.2.2 ⟨10, true⟩ ⟨"f", 1, 1⟩ (by decide)⟩

/-- Outcome of one execution attempt of a (repository, checker) task. -/
inductive Outcome where
  | success (findings : List Finding)
  | transientErr
  | terminalErr
deriving DecidableEq, Repr

/-- Final state of one task under the scheduling engine. -/
inductive TaskResult where
  | done (findings : List Finding)
  | failed
deriving DecidableEq, Repr

/-- Modelled from the spec: the state machine of §4.4 — `Executing` yields
`Done` on success, `Failed` immediately on a terminal failure, and on a
transient failure re-enters `Executing` while retries remain, else
`Failed`. `exec i` is the outcome of the i-th attempt. -/
def attemptLoop (exec : Nat → Outcome) (i : Nat) : Nat → TaskResult
  | 0 =>
    match exec i with
    | .success fs => .done fs
    | .transientErr => .failed
    | .terminalErr => .failed
  | retriesLeft + 1 =>
    match exec i with
    | .success fs => .done fs
    | .terminalErr => .failed
    | .transientErr => attemptLoop exec (i + 1) retriesLeft

/-- Modelled from the spec: one initial attempt plus up to
`retryAttempts` retries. -/
def runWithRetry (retryAttempts : Nat) (exec : Nat → Outcome) : TaskResult :=
  attemptLoop exec 0 retryAttempts

/-- The diagnostic Finding recorded for a task that exhausted its
retries: severity `high`, naming the checker and the repository. -/
def failedFinding (cid repo : String) : Finding :=
  ⟨cid, "engine", .high, repo, "checker failed after retries", none⟩

/-- Modelled from the spec: a `Failed` task is recorded as one
high-severity Finding rather than aborting the run. -/
def taskFindings (cid repo : String) : TaskResult → List Finding
  | .done fs => fs
  | .failed => [failedFinding cid repo]

/-- Modelled from the spec: the engine produces a result for every task,
failed or not. -/
def engineRun (retryAttempts : Nat) (cid repo : String)
    (tasks : List (Nat → Outcome)) : List (List Finding) :=
  tasks.map fun exec => taskFindings cid repo (runWithRetry retryAttempts exec)

/-- C6: with `retry_attempts: 3`, a task failing transiently twice then
succeeding yields the successful findings and no Failed finding; a task
failing transiently on 4 consecutive attempts yields exactly the one
high-severity Failed finding; every task still yields a result, so the
run is never aborted. -/
theorem retry_policy (exec : Nat → Outcome) (fs : List Finding)
    (cid repo : String) :
    (exec 0 = .transientErr → exec 1 = .transientErr →
       exec 2 = .success fs →
       runWithRetry 3 exec = .done fs ∧
       taskFindings cid repo (runWithRetry 3 exec) = fs) ∧
    ((∀ i < 4, exec i = .transientErr) →
       taskFindings cid repo (runWithRetry 3 exec)
         = [failedFinding cid repo] ∧
       (failedFinding cid repo).severity = .high) ∧
    (∀ tasks : List (Nat → Outcome),
       (engineRun 3 cid repo tasks).length = tasks.length) := by
  refine ⟨fun h0 h1 h2 => ?_, fun hall => ?_, fun tasks => ?_⟩
  · have hres : runWithRetry 3 exec = .done fs := by
      simp [runWithRetry, attemptLoop, h0, h1, h2]
    exact ⟨hres, by rw [hres]; rfl⟩
  · have hres : runWithRetry 3 exec = .failed := by
      simp [runWithRetry, attemptLoop, hall 0 (by omega), hall 1 (by omega),
        hall 2 (by omega), hall 3 (by omega)]
    exact ⟨by rw [hres]; rfl, rfl⟩
  · simp [engineRun]

/-- Witness for C6: concrete schedules of attempt outcomes. -/
theorem retry_policy_witness :
    runWithRetry 3 (fun i => if i < 2 then .transientErr else .success []) =
      .done [] ∧
    taskFindings "cc" "r" (runWithRetry 3 fun _ => .transientErr)
      = [failedFinding "cc" "r"] :=
  ⟨((retry_policy (fun i => if i < 2 then .transientErr else .success [])
        [] "cc" "r").1 rfl rfl rfl).1,
   ((retry_policy (fun _ => .transientErr) [] "cc" "r").2.1
      fun _ _ => rfl).1⟩

/-- Key of the result cache: repository content fingerprint, checker id,
options fingerprint. -/
structure CacheKey where
  repoFingerprint : String
  checkerId : String
  optionsFingerprint : String
deriving DecidableEq, Repr

/-- A cached value: findings plus insertion time. -/
structure CacheEntry where
  findings : List Finding
  insertedAt : Nat
deriving DecidableEq, Repr

/-- The cache store plus a counter of checker-logic invocations. -/
structure CacheState where
  entries : List (CacheKey × CacheEntry)
  invocations : Nat
deriving DecidableEq, Repr

/-- Association-list lookup of a key's entry. -/
def lookupEntry (entries : List (CacheKey × CacheEntry)) (k : CacheKey) :
    Option CacheEntry :=
  (entries.find? fun e => e.1 == k).map Prod.snd

/-- Modelled from the spec: a cached entry is served only when its age
(`now` minus insertion time) does not exceed the TTL; otherwise the
lookup is a miss. -/
def lookupFresh (ttl now : Nat) (entries : List (CacheKey × CacheEntry))
    (k : CacheKey) : Option (List Finding) :=
  match lookupEntry entries k with
  | some e => if now - e.insertedAt ≤ ttl then some e.findings else none
  | none => none

/-- Modelled from the spec: on a fresh hit the cached findings are served
without invoking the checker; on a miss (absent or stale) the checker
logic runs, its findings are stored at the current time and the
invocation counter increments. -/
def cachedRun (ttl : Nat) (logic : List Finding) (k : CacheKey) (now : Nat)
    (st : CacheState) : List Finding × CacheState :=
  match lookupFresh ttl now st.entries k with
  | some fs => (fs, st)
  | none => (logic, ⟨(k, ⟨logic, now⟩) :: st.entries, st.invocations + 1⟩)

/-- C7: the cache never serves an entry older than the TTL; a miss
executes the checker; within the TTL an identical second run is served
from the cache with identical findings and no new invocation; after the
TTL expires a further run re-invokes the checker. -/
theorem cache_ttl_correct (ttl : Nat) (logic : List Finding) (k : CacheKey)
    (t0 t1 t2 : Nat) (st0 : CacheState)
    (hmiss : lookupFresh ttl t0 st0.entries k = none)
    (hfresh : t1 - t0 ≤ ttl) (hstale : ttl < t2 - t0) :
    ((cachedRun ttl logic k t0 st0).2.invocations = st0.invocations + 1 ∧
       (cachedRun ttl logic k t0 st0).1 = logic) ∧
    cachedRun ttl logic k t1 (cachedRun ttl logic k t0 st0).2 =
      ((cachedRun ttl logic k t0 st0).1, (cachedRun ttl logic k t0 st0).2) ∧
    (cachedRun ttl logic k t2 (cachedRun ttl logic k t0 st0).2).2.invocations
      = (cachedRun ttl logic k t0 st0).2.invocations + 1 := by
  have hrun0 : cachedRun ttl logic k t0 st0 =
      (logic, ⟨(k, ⟨logic, t0⟩) :: st0.entries, st0.invocations + 1⟩) := by
    simp [cachedRun, hmiss]
  have hlook : ∀ now, lookupFresh ttl now ((k, ⟨logic, t0⟩) :: st0.entries) k =
      if now - t0 ≤ ttl then some logic else none := by
    intro now
    simp [lookupFresh, lookupEntry, List.find?]
  refine ⟨⟨by rw [hrun0], by rw [hrun0]⟩, ?_, ?_⟩
  · rw [hrun0]
    simp [cachedRun, hlook t1, hfresh]
  · rw [hrun0]
    simp [cachedRun, hlook t2, Nat.not_le.mpr hstale]

/-- Witness for C7 at a concrete key, TTL 5 and times 0, 3, 100. -/
theorem cache_ttl_correct_witness :
    (cachedRun 5 [] ⟨"repo", "cc", "opts"⟩ 0 ⟨[], 0⟩).2.invocations = 0 + 1 ∧
    cachedRun 5 [] ⟨"repo", "cc", "opts"⟩ 3
        (cachedRun 5 [] ⟨"repo", "cc", "opts"⟩ 0 ⟨[], 0⟩).2 =
      ((cachedRun 5 [] ⟨"repo", "cc", "opts"⟩ 0 ⟨[], 0⟩).1,
       (cachedRun 5 [] ⟨"repo", "cc", "opts"⟩ 0 ⟨[], 0⟩).2) ∧
    (cachedRun 5 [] ⟨"repo", "cc", "opts"⟩ 100
        (cachedRun 5 [] ⟨"repo", "cc", "opts"⟩ 0 ⟨[], 0⟩).2).2.invocations =
      (cachedRun 5 [] ⟨"repo", "cc", "opts"⟩ 0 ⟨[], 0⟩).2.invocations + 1 :=
  have h := cache_ttl_correct 5 [] ⟨"repo", "cc", "opts"⟩ 0 3 100 ⟨[], 0⟩
    rfl (by decide) (by decide)
  ⟨h.1.1, h.2.1, h.2.2⟩

/-- A configured repository: name, local path, tags
(`internal/config.Repository` as used by `cmd/repos/main.go`). -/
structure Repository where
  name : String
  path : String
  tags : List String
deriving DecidableEq, Repr

/-- Observable effect of one run of the health command: process exit
code, number of checker invocations, whether a report was rendered. -/
structure CmdEffect where
  exitCodeVal : Nat
  checkersExecuted : Nat
  reportRendered : Bool
deriving DecidableEq, Repr

/-- Embedded from `healthCmd` in `cmd/repos/main.go` (lines 297-337):
after tag filtering, an empty repository list prints a notice and returns
from the command (so the process exits 0) before any checker runs or any
report is produced; otherwise `health.CheckAllRepositories` runs, the
report is rendered and the exit code follows the summary contract. The
engine is abstracted as a function from the repository list to a report
plus its checker invocation count. -/
def healthCmdRun (filtered : List Repository)
    (engine : List Repository → HealthReport × Nat) : CmdEffect :=
  if filtered.length = 0 then
    ⟨0, 0, false⟩
  else
    let r := engine filtered
    ⟨exitCode r.1.summary, r.2, true⟩

/-- C9: when tag filtering leaves no repositories, the health command
returns immediately: no checker executes, no report is rendered, and the
exit code is 0 whatever the engine would have reported. -/
theorem health_empty_repos (engine : List Repository → HealthReport × Nat)
    (filtered : List Repository) (h : filtered = []) :
    healthCmdRun filtered engine = ⟨0, 0, false⟩ := by
  subst h
  rfl

/-- Witness for C9: the empty list under an engine that would have
reported critical findings still exits 0 with nothing executed. -/
theorem health_empty_repos_witness :
    healthCmdRun [] (fun _ => (⟨[], ⟨5, 5, 5⟩⟩, 7)) = ⟨0, 0, false⟩ :=
  health_empty_repos (fun _ => (⟨[], ⟨5, 5, 5⟩⟩, 7)) [] rfl

/-- Accumulation state of `processRepos`: the names already handed to the
processor, in order, and whether any invocation returned an error. -/
structure ProcState where
  invoked : List String
  hasErrors : Bool
deriving DecidableEq, Repr

/-- Embedded from the sequential branch of `processRepos` in
`cmd/repos/main.go` (lines 446-453): each repository is processed in
order; an error is logged and flips `hasErrors` without stopping the
loop. The processor returns `none` on success and `some msg` on error. -/
def seqStep (proc : Repository → Option String) (st : ProcState)
    (r : Repository) : ProcState :=
  { invoked := st.invoked ++ [r.name]
    hasErrors := st.hasErrors || (proc r).isSome }

/-- The sequential branch: a fold of `seqStep` from the empty state. -/
def processReposSeq (repos : List Repository)
    (proc : Repository → Option String) : ProcState :=
  repos.foldl (seqStep proc) ⟨[], false⟩

/-- Embedded from the parallel branch of `processRepos` in
`cmd/repos/main.go` (lines 428-445): one goroutine per repository invokes
the processor once; `hasErrors` is set under a mutex when any invocation
errs. Completion order is nondeterministic, but the set of invocations
and the error outcome are not; the canonical list order stands in for the
unordered invocation multiset. -/
def processReposPar (repos : List Repository)
    (proc : Repository → Option String) : ProcState :=
  { invoked := repos.map Repository.name
    hasErrors := repos.any fun r => (proc r).isSome }

/-- Embedded from `processRepos` in `cmd/repos/main.go` (lines 424-459):
dispatch on the parallel flag, then return the error
`"one or more commands failed"` exactly when some invocation failed,
together with the invocation log. -/
def processRepos (repos : List Repository) (par : Bool)
    (proc : Repository → Option String) : Option String × List String :=
  let st := if par then processReposPar repos proc else processReposSeq repos proc
  (if st.hasErrors then some "one or more commands failed" else none,
   st.invoked)

theorem processReposSeq_eq (repos : List Repository)
    (proc : Repository → Option String) :
    processReposSeq repos proc =
      ⟨repos.map Repository.name, repos.any fun r => (proc r).isSome⟩ := by
  have key : ∀ st : ProcState, repos.foldl (seqStep proc) st =
      ⟨st.invoked ++ repos.map Repository.name,
       st.hasErrors || repos.any fun r => (proc r).isSome⟩ := by
    induction repos with
    | nil => intro st; simp
    | cons r rs ih =>
      intro st
      rw [List.foldl_cons, ih]
      simp [seqStep, Bool.or_assoc]
  simpa [processReposSeq] using key ⟨[], false⟩

/-- C10: `processRepos` invokes the processor exactly once per repository
(every repository appears in the invocation log, errors notwithstanding),
returns an error exactly when at least one invocation erred, and the
parallel and sequential modes agree on the whole outcome. -/
theorem processRepos_spec (repos : List Repository) (par : Bool)
    (proc : Repository → Option String) :
    (processRepos repos par proc).2 = repos.map Repository.name ∧
    ((processRepos repos par proc).1 ≠ none ↔ ∃ r ∈ repos, proc r ≠ none) ∧
    processRepos repos true proc = processRepos repos false proc := by
  have hmode : ∀ b : Bool,
      (if b then processReposPar repos proc else processReposSeq repos proc) =
        ⟨repos.map Repository.name, repos.any fun r => (proc r).isSome⟩ := by
    intro b
    cases b
    · exact processReposSeq_eq repos proc
    · rfl
  refine ⟨?_, ?_, ?_⟩
  · rw [processRepos, hmode par]
  · rw [processRepos, hmode par]
    by_cases hany : (repos.any fun r => (proc r).isSome) = true
    · simp only [hany, if_pos]
      simp only [List.any_eq_true, Option.isSome_iff_ne_none] at hany
      simp [hany]
    · simp only [Bool.not_eq_true] at hany
      simp only [hany]
      simp only [Bool.false_eq_true, if_false, ne_eq, not_true_eq_false,
        false_iff, not_exists]
      rintro r ⟨hmem, hne⟩
      have hfalse := List.any_eq_false.mp hany r hmem
      rw [Option.isSome_iff_ne_none] at hfalse
      exact hfalse hne
  · rw [processRepos, processRepos, hmode true, hmode false]

end Repos
